import Mathlib

/-!
Verification of the MersenneManager work-cache reconciliation core.

Byte strings are modelled as `List Char` (the Go code works on `[]byte`
of ASCII text).  Regexp extraction, the classification pass
(`filterResults`), the chunked submission loop of `sendResults`, the
target adjustment (`setTargets`), the GPU72 de-duplication
(`filterDups`), and the polling loops of both managers are translated
from `TFmanager/main.go` and the clLucas manager source.  Remote calls
and file-write outcomes are supplied by an explicit environment
(`Env`), so the functions stay pure and executable.
-/

namespace MersenneManager

/-- mersenne.org/manual_result limit is 2MB; the code leaves a 1K
safety buffer: `const sendlimit = 2*1024*1024 - 1024`. -/
def sendlimit : Nat := 2 * 1024 * 1024 - 1024

/-- Model of `bytes.Replace(curr, []byte("\r"), []byte("\n"), -1)`:
every CR byte is replaced by LF. -/
def normalize (b : List Char) : List Char :=
  b.map (fun c => if c = '\r' then '\n' else c)

/-- Split a byte string on newline bytes (the line structure that the
line-bound regular expressions of the managers observe; `.` in Go
regexp does not match `\n`). -/
def splitNl : List Char → List (List Char)
  | [] => [[]]
  | c :: cs =>
    let r := splitNl cs
    if c = '\n' then [] :: r else (c :: r.headD []) :: r.tail

/-- Model of `bytes.Contains(hay, needle)`: `needle` occurs as a
contiguous substring of `hay` (an empty needle is always contained,
as in Go). -/
def containsSub (hay needle : List Char) : Bool :=
  needle.isPrefixOf hay ||
    match hay with
    | [] => false
    | _ :: t => containsSub t needle

/-- Model of `resultExtract.Find(record)` for the TFmanager pattern
`M([0-9]+)`: the leftmost occurrence of `M` followed by a maximal
nonempty digit run, returned with the leading `M` (as the Go regexp
returns the matched bytes).  `[]` encodes Go's `nil` (no match); the
records handed to `filterResults` always match. -/
def extractKey : List Char → List Char
  | [] => []
  | c :: cs =>
    if c = 'M' ∧ cs.takeWhile Char.isDigit ≠ [] then
      'M' :: cs.takeWhile Char.isDigit
    else extractKey cs

/-- The numeric key of a result record: `asgn[1:]` in the Go source,
the digits of the extracted key with the leading `M` stripped. -/
def keyDigits (r : List Char) : List Char :=
  (extractKey r).drop 1

/-- A line matches the TFmanager result pattern
`.*M([0-9]+) .*`: it contains an `M`, at least one digit, and a space
byte immediately after the digit run.  Since `.` does not cross
newlines and both `.*` are unconstrained within the line, the Go
`FindAll` match for such a line is the whole line. -/
def lineHasResult : List Char → Bool
  | [] => false
  | c :: cs =>
    (decide (c = 'M') && !(cs.takeWhile Char.isDigit).isEmpty &&
      decide ((cs.dropWhile Char.isDigit).headD 'x' = ' ')) ||
    lineHasResult cs

/-- Model of `resultReg.FindAll(curr, -1)` in TFmanager: the lines of
`curr` that match `.*M([0-9]+) .*`, each taken whole, in order. -/
def findResults (text : List Char) : List (List Char) :=
  (splitNl text).filter lineHasResult

/-- Go map lookup for the `asgns` classification map, modelled as an
association list (every key is inserted at most once). -/
def lookupKey (k : List Char) : List (List Char × Nat) → Option Nat
  | [] => none
  | p :: m => if p.1 = k then some p.2 else lookupKey k m

/-- The loop body of `filterResults`: classify each record by its
extracted key.  A key seen before reuses its remembered class
(1 = keep, 2 = send); a fresh key is classified by
`bytes.Contains(todo, asgn[1:])` — the digits of the key checked as a
substring of the work-queue contents — and remembered.  The `some _`
arm mirrors Go's `switch` without a `default` (unreachable: only 1
and 2 are ever stored). -/
def filterGo (todo : List Char) :
    List (List Char) → List (List Char × Nat) →
      List (List Char) × List (List Char)
  | [], _ => ([], [])
  | r :: rs, m =>
    match lookupKey (extractKey r) m with
    | some 1 =>
      let p := filterGo todo rs m
      (r :: p.1, p.2)
    | some 2 =>
      let p := filterGo todo rs m
      (p.1, r :: p.2)
    | some _ => filterGo todo rs m
    | none =>
      if containsSub todo (keyDigits r) then
        let p := filterGo todo rs ((extractKey r, 1) :: m)
        (r :: p.1, p.2)
      else
        let p := filterGo todo rs ((extractKey r, 2) :: m)
        (p.1, r :: p.2)

/-- `func filterResults(results [][]byte, todo []byte) (keep, send [][]byte)`. -/
def filterResults (results : List (List Char)) (todo : List Char) :
    List (List Char) × List (List Char) :=
  filterGo todo results []

/-- The invariant of the `asgns` map during the classification pass:
every remembered class agrees with a direct check of the key digits
against the (unchanging) queue contents. -/
def MapConsistent (todo : List Char) (m : List (List Char × Nat)) : Prop :=
  ∀ k v, lookupKey k m = some v →
    v = if containsSub todo (k.drop 1) then 1 else 2

theorem filterGo_eq_filter (todo : List Char) :
    ∀ (rs : List (List Char)) (m : List (List Char × Nat)),
      MapConsistent todo m →
      filterGo todo rs m =
        (rs.filter (fun r => containsSub todo (keyDigits r)),
         rs.filter (fun r => !containsSub todo (keyDigits r))) := by
  intro rs
  induction rs with
  | nil => intro m _; simp [filterGo]
  | cons r rs ih =>
    intro m hm
    cases hl : lookupKey (extractKey r) m with
    | none =>
      cases hc : containsSub todo (keyDigits r) with
      | true =>
        have hm2 : MapConsistent todo ((extractKey r, 1) :: m) := by
          intro k v hkv
          rcases eq_or_ne (extractKey r) k with hk | hk
          · subst hk
            have hv : some (1 : Nat) = some v := by
              simpa [lookupKey] using hkv
            have hv2 : v = 1 := (Option.some.injEq _ _ ▸ hv).symm
            subst hv2
            show (1 : Nat) = if containsSub todo (keyDigits r) then 1 else 2
            rw [hc]
            simp
          · have : lookupKey k m = some v := by
              simpa [lookupKey, fun h => hk h] using hkv
            exact hm k v this
        rw [show filterGo todo (r :: rs) m =
            (r :: (filterGo todo rs ((extractKey r, 1) :: m)).1,
              (filterGo todo rs ((extractKey r, 1) :: m)).2) by
          simp [filterGo, hl, hc]]
        rw [ih _ hm2]
        simp [List.filter_cons, hc]
      | false =>
        have hm2 : MapConsistent todo ((extractKey r, 2) :: m) := by
          intro k v hkv
          rcases eq_or_ne (extractKey r) k with hk | hk
          · subst hk
            have hv : some (2 : Nat) = some v := by
              simpa [lookupKey] using hkv
            have hv2 : v = 2 := (Option.some.injEq _ _ ▸ hv).symm
            subst hv2
            show (2 : Nat) = if containsSub todo (keyDigits r) then 1 else 2
            rw [hc]
            simp
          · have : lookupKey k m = some v := by
              simpa [lookupKey, fun h => hk h] using hkv
            exact hm k v this
        rw [show filterGo todo (r :: rs) m =
            ((filterGo todo rs ((extractKey r, 2) :: m)).1,
              r :: (filterGo todo rs ((extractKey r, 2) :: m)).2) by
          simp [filterGo, hl, hc]]
        rw [ih _ hm2]
        simp [List.filter_cons, hc]
    | some v =>
      have hv := hm _ _ hl
      cases hc : containsSub todo (keyDigits r) with
      | true =>
        have hv1 : v = 1 := by
          rw [hv]
          show (if containsSub todo (keyDigits r) then 1 else 2) = 1
          rw [hc]; simp
        subst hv1
        rw [show filterGo todo (r :: rs) m =
            (r :: (filterGo todo rs m).1, (filterGo todo rs m).2) by
          simp [filterGo, hl]]
        rw [ih _ hm]
        simp [List.filter_cons, hc]
      | false =>
        have hv2 : v = 2 := by
          rw [hv]
          show (if containsSub todo (keyDigits r) then 1 else 2) = 2
          rw [hc]; simp
        subst hv2
        rw [show filterGo todo (r :: rs) m =
            ((filterGo todo rs m).1, r :: (filterGo todo rs m).2) by
          simp [filterGo, hl]]
        rw [ih _ hm]
        simp [List.filter_cons, hc]

/-- C3: `filterResults` processes the records in file order; a record
is placed in the "keep" sequence exactly when the digits of its
extracted key occur as a substring of the queue contents, and in the
"send" sequence otherwise; every later occurrence of a key receives
the same class as the first (the remembered class equals the direct
check because the queue text does not change during the pass); and
both returned sequences are order-preserving sublists of the input,
as the `List.filter` characterisation shows. -/
theorem filterResults_classification
    (results : List (List Char)) (todo : List Char) :
    filterResults results todo =
      (results.filter (fun r => containsSub todo (keyDigits r)),
       results.filter (fun r => !containsSub todo (keyDigits r))) :=
  filterGo_eq_filter todo results [] (by intro k v h; simp [lookupKey] at h)

/-- C2: a result record whose extracted numeric key occurs as a
substring of the work-queue contents is placed in the "keep" sequence
and never in the "send" sequence (whose newline-join is the only data
handed to the submission loop); conversely every member of the "send"
sequence has a key that does not occur in the queue contents. -/
theorem filterResults_retains_queue_present
    (results : List (List Char)) (todo : List Char) (r : List Char)
    (hr : r ∈ results) :
    (containsSub todo (keyDigits r) = true →
      r ∈ (filterResults results todo).1 ∧
        r ∉ (filterResults results todo).2) ∧
    (r ∈ (filterResults results todo).2 →
      containsSub todo (keyDigits r) = false) := by
  have h : filterResults results todo =
      (results.filter (fun r => containsSub todo (keyDigits r)),
       results.filter (fun r => !containsSub todo (keyDigits r))) :=
    filterGo_eq_filter todo results [] (by intro k v h; simp [lookupKey] at h)
  rw [h]
  constructor
  · intro hc
    refine ⟨List.mem_filter.mpr ⟨hr, hc⟩, fun hmem => ?_⟩
    have := (List.mem_filter.mp hmem).2
    simp [hc] at this
  · intro hs
    have := (List.mem_filter.mp hs).2
    simpa using this

theorem filterResults_retains_queue_present_witness :
    (['M', '1', ' ', 'a'] ∈
        (filterResults [['M', '1', ' ', 'a']] ['x', '1', 'y']).1) ∧
    (['M', '1', ' ', 'a'] ∉
        (filterResults [['M', '1', ' ', 'a']] ['x', '1', 'y']).2) :=
  (filterResults_retains_queue_present [['M', '1', ' ', 'a']]
    ['x', '1', 'y'] ['M', '1', ' ', 'a'] (by decide)).1 (by decide)

/-- Model of `bytes.LastIndexByte(b, '\n')`: the index of the last
newline byte, `none` for Go's `-1`. -/
def lastNewline : List Char → Option Nat
  | [] => none
  | c :: cs =>
    match lastNewline cs with
    | some p => some (p + 1)
    | none => if c = '\n' then some 0 else none

/-- The per-iteration chunk length of the submission loop:
`if len(results[i:]) > sendlimit { loc = bytes.LastIndexByte(results[i:i+sendlimit], '\n') + 1 } else { loc = len(results[i:]) }`.
`rem` is the remaining suffix `results[i:]`; the value `0` encodes
Go's `-1 + 1` when no newline exists in the window. -/
def chunkLen (rem : List Char) : Nat :=
  if sendlimit < rem.length then
    match lastNewline (rem.take sendlimit) with
    | none => 0
    | some p => p + 1
  else rem.length

/-- The chunk decomposition computed by the submission loop
`for loc, i := 0, 0; i < len(results)-1; i += loc`, with the failure
(`loc <= 0`) returned as `none`.  The loop advances by at least one
byte per iteration, so a fuel of `len(results)` (supplied by `chunks`)
is enough; the translation is otherwise literal: the guard
`1 < rem.length` is Go's `i < len(results)-1` for the suffix
`rem = results[i:]`. -/
def chunksF : Nat → List Char → Option (List (List Char))
  | 0, _ => some []
  | fuel + 1, rem =>
    if 1 < rem.length then
      if chunkLen rem = 0 then none
      else
        match chunksF fuel (rem.drop (chunkLen rem)) with
        | none => none
        | some cs => some (rem.take (chunkLen rem) :: cs)
    else some []

/-- The chunks submitted for a blob by the loop in `sendResults`. -/
def chunks (blob : List Char) : Option (List (List Char)) :=
  chunksF blob.length blob

theorem chunksF_nil (fuel : Nat) : chunksF fuel [] = some [] := by
  cases fuel <;> simp [chunksF]

theorem lastNewline_decomp :
    ∀ (l : List Char) (p : Nat), lastNewline l = some p →
      ∃ a b, l = a ++ '\n' :: b ∧ a.length = p := by
  intro l
  induction l with
  | nil => intro p h; simp [lastNewline] at h
  | cons c cs ih =>
    intro p h
    cases hcs : lastNewline cs with
    | some q =>
      rw [lastNewline, hcs] at h
      have hp : q + 1 = p := Option.some.inj h
      obtain ⟨a, b, hab, hlen⟩ := ih q hcs
      exact ⟨c :: a, b, by simp [hab], by simp [hlen, hp]⟩
    | none =>
      rw [lastNewline, hcs] at h
      by_cases hc : c = '\n'
      · rw [if_pos hc] at h
        have hp : (0 : Nat) = p := Option.some.inj h
        exact ⟨[], cs, by simp [hc], by simp [← hp]⟩
      · rw [if_neg hc] at h
        exact absurd h (by simp)

theorem lastNewline_replicate (n : Nat) :
    lastNewline (List.replicate n 'a') = none := by
  induction n with
  | zero => rfl
  | succ n ih => simp [List.replicate_succ, lastNewline, ih]

/-- Structure of the window split when a newline is found: the chunk
taken is `a ++ ['\n']` and the loop continues on the rest. -/
theorem chunkLen_decomp (rem : List Char) (h1 : sendlimit < rem.length)
    (p : Nat) (hp : lastNewline (rem.take sendlimit) = some p) :
    ∃ a rest, rem = a ++ '\n' :: rest ∧ a.length = p ∧
      p + 1 ≤ sendlimit ∧ rem.take (p + 1) = a ++ ['\n'] ∧
      rem.drop (p + 1) = rest := by
  obtain ⟨a, b, hab, hlen⟩ := lastNewline_decomp _ _ hp
  have htl : (rem.take sendlimit).length = sendlimit := by
    rw [List.length_take]; omega
  have hps : p + 1 ≤ sendlimit := by
    have h2 := congrArg List.length hab
    rw [htl] at h2
    simp at h2
    omega
  have hrem : rem = a ++ '\n' :: (b ++ rem.drop sendlimit) := by
    conv_lhs => rw [← List.take_append_drop sendlimit rem]
    rw [hab]
    simp
  refine ⟨a, b ++ rem.drop sendlimit, hrem, hlen, hps, ?_, ?_⟩
  · conv_lhs => rw [hrem]
    rw [List.take_append_eq_append_take]
    have h3 : a.take (p + 1) = a := List.take_of_length_le (by omega)
    have h4 : p + 1 - a.length = 1 := by omega
    rw [h3, h4]
    simp
  · conv_lhs => rw [hrem]
    rw [List.drop_append_eq_append_drop]
    have h3 : a.drop (p + 1) = [] := List.drop_eq_nil_of_le (by omega)
    have h4 : p + 1 - a.length = 1 := by omega
    rw [h3, h4]
    simp

theorem take_chunkLen_length_le (rem : List Char) :
    (rem.take (chunkLen rem)).length ≤ sendlimit := by
  rw [List.length_take, chunkLen]
  by_cases h : sendlimit < rem.length
  · rw [if_pos h]
    cases hp : lastNewline (rem.take sendlimit) with
    | none =>
      show min 0 rem.length ≤ sendlimit
      omega
    | some p =>
      obtain ⟨a, rest, _, _, hps, _, _⟩ := chunkLen_decomp rem h p hp
      show min (p + 1) rem.length ≤ sendlimit
      omega
  · rw [if_neg h]
    omega

theorem chunksF_length_le :
    ∀ (fuel : Nat) (rem : List Char) (cs : List (List Char)),
      chunksF fuel rem = some cs → ∀ c ∈ cs, c.length ≤ sendlimit := by
  intro fuel
  induction fuel with
  | zero =>
    intro rem cs h c hc
    simp [chunksF] at h
    subst h
    simp at hc
  | succ fuel ih =>
    intro rem cs h c hc
    by_cases hgt : 1 < rem.length
    · simp only [chunksF, if_pos hgt] at h
      by_cases hz : chunkLen rem = 0
      · rw [if_pos hz] at h; exact absurd h (by simp)
      · rw [if_neg hz] at h
        cases hrec : chunksF fuel (rem.drop (chunkLen rem)) with
        | none => rw [hrec] at h; exact absurd h (by simp)
        | some cs2 =>
          rw [hrec] at h
          have hcs : rem.take (chunkLen rem) :: cs2 = cs := Option.some.inj h
          subst hcs
          rcases List.mem_cons.mp hc with hc1 | hc2
          · subst hc1; exact take_chunkLen_length_le rem
          · exact ih _ _ hrec c hc2
    · simp only [chunksF, if_neg hgt] at h
      have hcs : ([] : List (List Char)) = cs := Option.some.inj h
      subst hcs
      simp at hc

theorem chunksF_boundary :
    ∀ (fuel : Nat) (rem : List Char) (cs : List (List Char)),
      chunksF fuel rem = some cs →
      ∀ i, i + 1 < cs.length → (cs.getD i []).getLast? = some '\n' := by
  intro fuel
  induction fuel with
  | zero =>
    intro rem cs h i hi
    simp [chunksF] at h
    subst h
    simp at hi
  | succ fuel ih =>
    intro rem cs h i hi
    by_cases hgt : 1 < rem.length
    · simp only [chunksF, if_pos hgt] at h
      by_cases hz : chunkLen rem = 0
      · rw [if_pos hz] at h; exact absurd h (by simp)
      · rw [if_neg hz] at h
        cases hrec : chunksF fuel (rem.drop (chunkLen rem)) with
        | none => rw [hrec] at h; exact absurd h (by simp)
        | some cs2 =>
          rw [hrec] at h
          have hcs : rem.take (chunkLen rem) :: cs2 = cs := Option.some.inj h
          subst hcs
          cases i with
          | succ j =>
            simp only [List.getD_cons_succ]
            exact ih _ _ hrec j (by simpa using hi)
          | zero =>
            simp only [List.getD_cons_zero]
            by_cases hb : sendlimit < rem.length
            · cases hp : lastNewline (rem.take sendlimit) with
              | none =>
                exact absurd (by rw [chunkLen, if_pos hb, hp]) hz
              | some p =>
                obtain ⟨a, rest, _, _, _, htake, _⟩ :=
                  chunkLen_decomp rem hb p hp
                have hloc : chunkLen rem = p + 1 := by
                  rw [chunkLen, if_pos hb, hp]
                rw [hloc, htake, List.getLast?_concat]
            · have hloc : chunkLen rem = rem.length := by
                rw [chunkLen, if_neg hb]
              rw [hloc, List.drop_length] at hrec
              rw [chunksF_nil] at hrec
              have : ([] : List (List Char)) = cs2 := Option.some.inj hrec
              subst this
              simp at hi
    · simp only [chunksF, if_neg hgt] at h
      have hcs : ([] : List (List Char)) = cs := Option.some.inj h
      subst hcs
      simp at hi

/-- Second-to-last byte of a suffix equals that of the whole list. -/
theorem getD_drop (l : List Char) (k j : Nat) (d : Char) :
    (l.drop k).getD j d = l.getD (k + j) d := by
  induction l generalizing k j with
  | nil => simp
  | cons c cs ih =>
    cases k with
    | zero => simp
    | succ k =>
      rw [List.drop_succ_cons]
      rw [ih]
      have : k + 1 + j = (k + j) + 1 := by omega
      rw [this, List.getD_cons_succ]

theorem getD_append_length (a l : List Char) (d : Char) :
    (a ++ l).getD a.length d = l.getD 0 d := by
  induction a with
  | nil => simp
  | cons c cs ih => simpa using ih

/-- The blob does not end in a one-byte final line: either it is
empty, or it has at least two bytes and its second-to-last byte is
not a newline.  Submit blobs built by `sendResults` always satisfy
this, because every `resultReg` record contains at least `M`, a
digit, and a space before trailing trimming. -/
def GoodTail (rem : List Char) : Prop :=
  rem.length ≠ 1 ∧ (2 ≤ rem.length → rem.getD (rem.length - 2) 'x' ≠ '\n')

theorem chunksF_join :
    ∀ (fuel : Nat) (rem : List Char) (cs : List (List Char)),
      rem.length ≤ fuel → GoodTail rem → chunksF fuel rem = some cs →
      cs.flatten = rem := by
  intro fuel
  induction fuel with
  | zero =>
    intro rem cs hf _ h
    have hnil : rem = [] := List.eq_nil_of_length_eq_zero (by omega)
    subst hnil
    rw [chunksF_nil] at h
    have := Option.some.inj h
    subst this
    rfl
  | succ fuel ih =>
    intro rem cs hf hg h
    by_cases hgt : 1 < rem.length
    · simp only [chunksF, if_pos hgt] at h
      by_cases hb : sendlimit < rem.length
      · cases hp : lastNewline (rem.take sendlimit) with
        | none =>
          have hz : chunkLen rem = 0 := by rw [chunkLen, if_pos hb, hp]
          rw [if_pos hz] at h
          exact absurd h (by simp)
        | some p =>
          have hloc : chunkLen rem = p + 1 := by
            rw [chunkLen, if_pos hb, hp]
          obtain ⟨a, rest, hrem, hlen, hps, htake, hdrop⟩ :=
            chunkLen_decomp rem hb p hp
          have hz : ¬ chunkLen rem = 0 := by omega
          rw [if_neg hz, hloc] at h
          cases hrec : chunksF fuel (rem.drop (p + 1)) with
          | none => rw [hrec] at h; exact absurd h (by simp)
          | some cs2 =>
            rw [hrec] at h
            have hcs : rem.take (p + 1) :: cs2 = cs := Option.some.inj h
            subst hcs
            have hlrem : rem.length = p + 1 + rest.length := by
              rw [hrem]; simp [hlen]; omega
            have hrest1 : rest.length ≠ 1 := by
              intro h1
              have h2 : 2 ≤ rem.length := by omega
              have h3 : rem.getD (rem.length - 2) 'x' = '\n' := by
                have : rem.length - 2 = a.length := by omega
                rw [this, hrem, getD_append_length]
                rfl
              exact hg.2 h2 h3
            have hgrest : GoodTail rest := by
              refine ⟨hrest1, fun h2 => ?_⟩
              have h3 : (rem.drop (p + 1)).getD (rest.length - 2) 'x' =
                  rem.getD (p + 1 + (rest.length - 2)) 'x' := getD_drop _ _ _ _
              rw [hdrop] at h3
              rw [h3]
              have h4 : p + 1 + (rest.length - 2) = rem.length - 2 := by omega
              rw [h4]
              exact hg.2 (by omega)
            have hfr : rest.length ≤ fuel := by omega
            have hjoin := ih rest cs2 hfr hgrest (by rw [← hdrop]; exact hrec)
            rw [List.flatten_cons, hjoin, htake, hrem]
            simp
      · have hloc : chunkLen rem = rem.length := by
          rw [chunkLen, if_neg hb]
        have hz : ¬ chunkLen rem = 0 := by omega
        rw [if_neg hz, hloc, List.drop_length, chunksF_nil] at h
        have hcs : rem.take rem.length :: [] = cs := Option.some.inj h
        subst hcs
        simp
    · simp only [chunksF, if_neg hgt] at h
      have hcs : ([] : List (List Char)) = cs := Option.some.inj h
      subst hcs
      have hnil : rem = [] := by
        have h1 := hg.1
        have h0 : rem.length = 0 := by omega
        exact List.eq_nil_of_length_eq_zero h0
      rw [hnil]
      rfl

/-- C4 (amended): for every submit blob on which the loop completes,
every produced chunk is at most `sendlimit` bytes long, every chunk
other than the last ends with a newline byte (each split point falls
on a newline boundary), the chunks are kept in original order, and —
provided the blob is not a single byte and its second-to-last byte is
not a newline (its final record is at least two bytes, which holds
for every blob `sendResults` actually builds) — concatenating the
chunks in order reproduces the blob.  Without the proviso the loop
bound `i < len(results)-1` can leave the final byte unsubmitted (see
the counterexample). -/
theorem chunks_length_boundary_join (blob : List Char)
    (cs : List (List Char)) (h : chunks blob = some cs)
    (h1 : blob.length ≠ 1)
    (h2 : 2 ≤ blob.length → blob.getD (blob.length - 2) 'x' ≠ '\n') :
    (∀ c ∈ cs, c.length ≤ sendlimit) ∧
    (∀ i, i + 1 < cs.length → (cs.getD i []).getLast? = some '\n') ∧
    cs.flatten = blob :=
  ⟨chunksF_length_le blob.length blob cs h,
   chunksF_boundary blob.length blob cs h,
   chunksF_join blob.length blob cs (Nat.le_refl _) ⟨h1, h2⟩ h⟩

theorem chunks_length_boundary_join_witness :
    chunks ['M', '1', ' ', 'a', '\n', 'M', '2', ' ', 'b'] =
        some [['M', '1', ' ', 'a', '\n', 'M', '2', ' ', 'b']] ∧
    List.flatten [['M', '1', ' ', 'a', '\n', 'M', '2', ' ', 'b']] =
      ['M', '1', ' ', 'a', '\n', 'M', '2', ' ', 'b'] := by
  refine ⟨by decide, ?_⟩
  exact (chunks_length_boundary_join _ _ (by decide) (by decide)
    (by decide)).2.2

/-- C4 counterexample: on the one-byte blob `Z` the loop guard
`i < len(results)-1` is false at once, so no chunk is produced and
the concatenation of all chunks is empty — it does not reproduce the
blob.  The claim as stated, quantified over every submit blob, is
therefore false. -/
theorem chunks_single_byte_blob_lost :
    chunks ['Z'] = some [] ∧
      List.flatten ([] : List (List Char)) ≠ ['Z'] := by decide

/-- The environment a reconcile call runs in: the acknowledgment
outcome of `sendbatch` per chunk (response contains `processing:`),
the `(n, err)` outcome of the ledger `sent.Write` per chunk, the
reported byte count of the trailing `sent.Write([]byte("\n"))`
(ignored by the code), and the `(n, err)` outcome of the final
`res.WriteAt` of the kept records. -/
structure Env where
  ack : List Char → Bool
  ledgerWrite : List Char → Nat × Bool
  nlWriteN : Nat
  resWrite : List Char → Nat × Bool

/-- The submission loop of `sendResults`, for both managers: split
the remaining suffix at `chunkLen`, fail on `loc <= 0`, submit via
`sendbatch`, then append the chunk to the ledger file, failing if the
write errs or is short.  Returns the bytes appended to the ledger and
the success flag; fuel as in `chunksF`. -/
def sendLoopF (env : Env) : Nat → List Char → List Char × Bool
  | 0, _ => ([], true)
  | fuel + 1, rem =>
    if 1 < rem.length then
      if chunkLen rem = 0 then ([], false)
      else if env.ack (rem.take (chunkLen rem)) then
        if (env.ledgerWrite (rem.take (chunkLen rem))).2 = false ∧
            (env.ledgerWrite (rem.take (chunkLen rem))).1 =
              (rem.take (chunkLen rem)).length then
          (rem.take (chunkLen rem) ++
              (sendLoopF env fuel (rem.drop (chunkLen rem))).1,
            (sendLoopF env fuel (rem.drop (chunkLen rem))).2)
        else ((rem.take (chunkLen rem)).take
            (env.ledgerWrite (rem.take (chunkLen rem))).1, false)
      else ([], false)
    else ([], true)

/-- The submission loop run on a whole blob from offset 0. -/
def sendLoop (env : Env) (blob : List Char) : List Char × Bool :=
  sendLoopF env blob.length blob

/-- C5: whenever the remaining unsubmitted suffix is longer than the
ceiling and its first `sendlimit` bytes contain no newline, the loop
computes `loc = -1 + 1 = 0`, appends nothing to the ledger, submits
nothing, and fails the call immediately (`return false`), for any
environment and any remaining fuel; in particular a whole blob of
that shape fails at once. -/
theorem sendLoop_no_newline_fails (env : Env) (fuel : Nat)
    (rem : List Char) (h1 : sendlimit < rem.length)
    (h2 : lastNewline (rem.take sendlimit) = none) :
    sendLoopF env (fuel + 1) rem = ([], false) ∧
      sendLoop env rem = ([], false) := by
  have hloc : chunkLen rem = 0 := by rw [chunkLen, if_pos h1, h2]
  have hgt : 1 < rem.length := by
    have : (1 : Nat) < sendlimit := by decide
    omega
  have hstep : ∀ f, sendLoopF env (f + 1) rem = ([], false) := by
    intro f
    simp only [sendLoopF, if_pos hgt, hloc]
    simp
  refine ⟨hstep fuel, ?_⟩
  obtain ⟨m, hm⟩ : ∃ m, rem.length = m + 1 := ⟨rem.length - 1, by omega⟩
  rw [sendLoop, hm]
  exact hstep m

/-- An environment in which the remote accepts everything and all
writes succeed in full. -/
def envPerfect : Env :=
  ⟨fun _ => true, fun c => (c.length, false), 1, fun b => (b.length, false)⟩

theorem sendLoop_no_newline_fails_witness :
    sendlimit < (List.replicate (sendlimit + 1) 'a').length ∧
    lastNewline ((List.replicate (sendlimit + 1) 'a').take sendlimit) =
      none ∧
    sendLoop envPerfect (List.replicate (sendlimit + 1) 'a') =
      ([], false) := by
  have h1 : sendlimit < (List.replicate (sendlimit + 1) 'a').length := by
    rw [List.length_replicate]; omega
  have h2 : lastNewline
      ((List.replicate (sendlimit + 1) 'a').take sendlimit) = none := by
    rw [List.take_replicate]
    have hmin : min sendlimit (sendlimit + 1) = sendlimit := by omega
    rw [hmin]
    exact lastNewline_replicate sendlimit
  exact ⟨h1, h2,
    (sendLoop_no_newline_fails envPerfect 0 _ h1 h2).2⟩

/-- Model of `bytes.TrimRight(b, " \n")`: trailing space and newline
bytes are removed. -/
def trimRightSp (b : List Char) : List Char :=
  (b.reverse.dropWhile (fun c => c == ' ' || c == '\n')).reverse

/-- Model of `bytes.Join(l, []byte("\n"))`. -/
def joinNl : List (List Char) → List Char
  | [] => []
  | [x] => x
  | x :: y :: xs => x ++ '\n' :: joinNl (y :: xs)

/-- The "keep" sequence computed by `sendResults`: the records of the
(normalized) results file classified against the (normalized) queue
file. -/
def keepRecords (todoC resC : List Char) : List (List Char) :=
  (filterResults (findResults (normalize resC)) (normalize todoC)).1

/-- The "send" sequence computed by `sendResults`. -/
def sendRecords (todoC resC : List Char) : List (List Char) :=
  (filterResults (findResults (normalize resC)) (normalize todoC)).2

/-- The submission blob:
`results := bytes.TrimRight(bytes.Join(send, []byte("\n")), " \n")`. -/
def submitBlob (todoC resC : List Char) : List Char :=
  trimRightSp (joinNl (sendRecords todoC resC))

/-- The rewrite payload of the results file:
`keepRes := append(bytes.Join(keep, []byte("\n")), byte('\n'))`. -/
def keepBlob (todoC resC : List Char) : List Char :=
  joinNl (keepRecords todoC resC) ++ ['\n']

/-- The externally visible outcome of one reconcile call: the return
value, the bytes appended to the ledger file (it is opened with
`O_APPEND` and never truncated), and the final contents of the
results file. -/
structure SendOutcome where
  success : Bool
  ledgerDelta : List Char
  resultsFile : List Char
deriving DecidableEq

/-- `func sendResults(dev device) (success bool)` in TFmanager, after
the lock/open/read prologue: parse the result lines, return `true`
at once if there are none; classify; run the submission loop on the
blob, returning `false` (results file untouched, ledger keeps the
chunks already appended) if it fails; otherwise append the trailing
ledger newline when anything was sent, rewrite the results file with
the keep payload at offset 0, truncating only if the write reported
full success, and return `true` regardless of the rewrite outcome. -/
def sendResults (env : Env) (todoC resC : List Char) : SendOutcome :=
  if findResults (normalize resC) = [] then ⟨true, [], resC⟩
  else if (sendLoop env (submitBlob todoC resC)).2 = false then
    ⟨false, (sendLoop env (submitBlob todoC resC)).1, resC⟩
  else
    ⟨true,
      (sendLoop env (submitBlob todoC resC)).1 ++
        (if sendRecords todoC resC ≠ [] then List.take env.nlWriteN ['\n']
         else []),
      if (env.resWrite (keepBlob todoC resC)).2 = false ∧
          (env.resWrite (keepBlob todoC resC)).1 =
            (keepBlob todoC resC).length then
        keepBlob todoC resC
      else
        (keepBlob todoC resC).take (env.resWrite (keepBlob todoC resC)).1 ++
          resC.drop (env.resWrite (keepBlob todoC resC)).1⟩

/-- Does a byte string start with the clLucas result pattern
`M\( ([0-9]*) \)`: literal `M( `, zero or more digits, then ` )`. -/
def llMatchAt : List Char → Bool
  | 'M' :: '(' :: ' ' :: rest =>
    decide ((rest.dropWhile Char.isDigit).take 2 = [' ', ')'])
  | _ => false

/-- The leftmost match of the clLucas pattern in a line; the match
extends to the end of the line through the trailing `.*`. -/
def lineResultLL : List Char → Option (List Char)
  | [] => none
  | c :: cs =>
    if llMatchAt (c :: cs) then some (c :: cs) else lineResultLL cs

/-- Model of `resultReg.FindAll` for the clLucas manager pattern
`M\( ([0-9]*) \).*`: per line, the suffix starting at the leftmost
occurrence of `M( digits )`. -/
def findResultsLL (text : List Char) : List (List Char) :=
  (splitNl text).filterMap lineResultLL

/-- The clLucas manager submission blob (every parsed record is sent;
there is no queue-based classification in that manager). -/
def submitBlobLL (resC : List Char) : List Char :=
  trimRightSp (joinNl (findResultsLL (normalize resC)))

/-- `func sendResults(dev device) (success bool)` in the clLucas
manager: parse the result lines, succeed trivially when none; run
the submission loop, failing the call and leaving the results file
alone if it fails; on full success append the ledger newline and
`res.Truncate(0)` — the results file ends up empty. -/
def sendResultsLL (env : Env) (resC : List Char) : SendOutcome :=
  if findResultsLL (normalize resC) = [] then ⟨true, [], resC⟩
  else if (sendLoop env (submitBlobLL resC)).2 = false then
    ⟨false, (sendLoop env (submitBlobLL resC)).1, resC⟩
  else
    ⟨true, (sendLoop env (submitBlobLL resC)).1 ++ List.take env.nlWriteN ['\n'],
      []⟩

/-- C1: in both managers, if the submission loop fails partway (the
acknowledgment token is missing, the transport fails, a ledger write
is short, or no newline exists to split on), the reconcile call
returns failure, the results file keeps exactly its previous
contents — unsent "submit" records included — and the final ledger
delta is exactly the bytes the loop appended for the chunks accepted
before the failure (the ledger is append-only and never rolled
back). -/
theorem sendResults_failure_keeps_results_file (env : Env)
    (todoC resC rl : List Char)
    (hTF : (sendLoop env (submitBlob todoC resC)).2 = false)
    (hLL : (sendLoop env (submitBlobLL rl)).2 = false) :
    sendResults env todoC resC =
      ⟨false, (sendLoop env (submitBlob todoC resC)).1, resC⟩ ∧
    sendResultsLL env rl =
      ⟨false, (sendLoop env (submitBlobLL rl)).1, rl⟩ := by
  constructor
  · by_cases h0 : findResults (normalize resC) = []
    · exfalso
      have hb : submitBlob todoC resC = [] := by
        rw [submitBlob, sendRecords, h0]
        rfl
      rw [hb] at hTF
      simp [sendLoop, sendLoopF] at hTF
    · rw [sendResults, if_neg h0, if_pos hTF]
  · by_cases h0 : findResultsLL (normalize rl) = []
    · exfalso
      have hb : submitBlobLL rl = [] := by
        rw [submitBlobLL, h0]
        rfl
      rw [hb] at hLL
      simp [sendLoop, sendLoopF] at hLL
    · rw [sendResultsLL, if_neg h0, if_pos hLL]

/-- An environment whose remote rejects every submission. -/
def envReject : Env :=
  ⟨fun _ => false, fun c => (c.length, false), 1, fun b => (b.length, false)⟩

theorem sendResults_failure_keeps_results_file_witness :
    sendResults envReject [] ['M', '1', '2', ' ', 'a'] =
      ⟨false, (sendLoop envReject (submitBlob [] ['M', '1', '2', ' ', 'a'])).1,
        ['M', '1', '2', ' ', 'a']⟩ ∧
    sendResultsLL envReject ['M', '(', ' ', '3', ' ', ')', ' ', 'x'] =
      ⟨false,
        (sendLoop envReject
          (submitBlobLL ['M', '(', ' ', '3', ' ', ')', ' ', 'x'])).1,
        ['M', '(', ' ', '3', ' ', ')', ' ', 'x']⟩ :=
  sendResults_failure_keeps_results_file envReject [] _ _ (by decide) (by decide)

/-- C10: once the submission loop has succeeded, the final rewrite of
the kept records cannot fail the call: if `res.WriteAt` reports an
error or a short byte count, the error is only logged, the results
file is not truncated — the written prefix of the keep payload is
followed by the stale bytes of the old contents — and `sendResults`
still returns `true`. -/
theorem sendResults_rewrite_failure_returns_true (env : Env)
    (todoC resC : List Char)
    (h0 : ¬ findResults (normalize resC) = [])
    (h1 : (sendLoop env (submitBlob todoC resC)).2 = true)
    (h2 : ¬ ((env.resWrite (keepBlob todoC resC)).2 = false ∧
        (env.resWrite (keepBlob todoC resC)).1 =
          (keepBlob todoC resC).length)) :
    (sendResults env todoC resC).success = true ∧
    (sendResults env todoC resC).resultsFile =
      (keepBlob todoC resC).take (env.resWrite (keepBlob todoC resC)).1 ++
        resC.drop (env.resWrite (keepBlob todoC resC)).1 := by
  rw [sendResults, if_neg h0, if_neg (by rw [h1]; simp), if_neg h2]
  exact ⟨rfl, rfl⟩

/-- An environment in which submissions and ledger writes succeed but
the final rewrite of the results file reports an immediate error. -/
def envNoRewrite : Env :=
  ⟨fun _ => true, fun c => (c.length, false), 1, fun _ => (0, true)⟩

theorem sendResults_rewrite_failure_returns_true_witness :
    (sendResults envNoRewrite [] ['M', '1', '2', ' ', 'a']).success = true ∧
    (sendResults envNoRewrite [] ['M', '1', '2', ' ', 'a']).resultsFile =
      (keepBlob [] ['M', '1', '2', ' ', 'a']).take
          (envNoRewrite.resWrite (keepBlob [] ['M', '1', '2', ' ', 'a'])).1 ++
        (['M', '1', '2', ' ', 'a']).drop
          (envNoRewrite.resWrite (keepBlob [] ['M', '1', '2', ' ', 'a'])).1 :=
  sendResults_rewrite_failure_returns_true envNoRewrite [] _
    (by decide) (by decide) (by decide)

theorem sendLoopF_of_chunksF (env : Env)
    (hw : ∀ c, env.ledgerWrite c = (c.length, false)) :
    ∀ (fuel : Nat) (rem : List Char) (cs : List (List Char)),
      chunksF fuel rem = some cs →
      (∀ c ∈ cs, env.ack c = true) →
      sendLoopF env fuel rem = (cs.flatten, true) := by
  intro fuel
  induction fuel with
  | zero =>
    intro rem cs h _
    rw [chunksF] at h
    have hcs : ([] : List (List Char)) = cs := Option.some.inj h
    subst hcs
    rfl
  | succ fuel ih =>
    intro rem cs h ha
    by_cases hgt : 1 < rem.length
    · simp only [chunksF, if_pos hgt] at h
      by_cases hz : chunkLen rem = 0
      · rw [if_pos hz] at h; exact absurd h (by simp)
      · rw [if_neg hz] at h
        cases hrec : chunksF fuel (rem.drop (chunkLen rem)) with
        | none => rw [hrec] at h; exact absurd h (by simp)
        | some cs2 =>
          rw [hrec] at h
          have hcs : rem.take (chunkLen rem) :: cs2 = cs := Option.some.inj h
          subst hcs
          have hack : env.ack (rem.take (chunkLen rem)) = true :=
            ha _ (List.mem_cons_self _ _)
          have hih := ih _ _ hrec (fun c hc => ha c (List.mem_cons_of_mem _ hc))
          simp only [sendLoopF, if_pos hgt, if_neg hz, hack, if_pos, hw,
            List.flatten_cons]
          rw [hih]
          simp
    · simp only [chunksF, if_neg hgt] at h
      have hcs : ([] : List (List Char)) = cs := Option.some.inj h
      subst hcs
      simp only [sendLoopF, if_neg hgt]
      rfl

/-- C9 (amended): when every result record classifies as "submit"
(no key occurs in the queue), the loop splits the blob into chunks
`cs` which the remote acknowledges in order, every ledger write
succeeds in full and the final rewrite succeeds, then `sendResults`
returns success, the ledger receives exactly the bytes of every
submitted chunk in original order followed by the separator newline,
and the results file afterwards contains a single newline byte (the
keep sequence is empty and the rewrite payload is
`bytes.Join(keep, "\n") + "\n"`): no result records remain, but the
file is one byte, not empty. -/
theorem sendResults_all_submit_ledger (env : Env)
    (todoC resC : List Char) (cs : List (List Char))
    (h0 : ¬ findResults (normalize resC) = [])
    (h2 : ∀ r ∈ findResults (normalize resC),
        containsSub (normalize todoC) (keyDigits r) = false)
    (h3 : chunks (submitBlob todoC resC) = some cs)
    (h4 : ∀ c ∈ cs, env.ack c = true)
    (h5 : ∀ c, env.ledgerWrite c = (c.length, false))
    (h6 : env.nlWriteN = 1)
    (h7 : env.resWrite ['\n'] = (1, false)) :
    sendResults env todoC resC = ⟨true, cs.flatten ++ ['\n'], ['\n']⟩ := by
  have hchar := filterGo_eq_filter (normalize todoC)
    (findResults (normalize resC)) []
    (by intro k v h; simp [lookupKey] at h)
  have hkeep : keepRecords todoC resC = [] := by
    rw [keepRecords, filterResults, hchar]
    rw [List.filter_eq_nil_iff]
    intro a ha
    simp [h2 a ha]
  have hsend : sendRecords todoC resC = findResults (normalize resC) := by
    rw [sendRecords, filterResults, hchar]
    rw [List.filter_eq_self]
    intro a ha
    simp [h2 a ha]
  have hloop : sendLoop env (submitBlob todoC resC) = (cs.flatten, true) :=
    sendLoopF_of_chunksF env h5 _ _ _ h3 h4
  have hkb : keepBlob todoC resC = ['\n'] := by
    rw [keepBlob, hkeep]; rfl
  rw [sendResults, if_neg h0, if_neg (by rw [hloop]; simp)]
  rw [hloop, hkb, h7, h6, hsend]
  simp [h0]

theorem sendResults_all_submit_ledger_witness :
    sendResults envPerfect [] ['M', '1', '2', ' ', 'a', 'b'] =
      ⟨true, List.flatten [['M', '1', '2', ' ', 'a', 'b']] ++ ['\n'],
        ['\n']⟩ :=
  sendResults_all_submit_ledger envPerfect [] _
    [['M', '1', '2', ' ', 'a', 'b']]
    (by decide) (by decide) (by decide) (by decide)
    (fun c => rfl) rfl rfl

/-- C9 counterexample: the success scenario of the claim run to
completion — the single record `M12 ab` classifies "submit" (its key
`12` is not in the empty queue), the chunk is acknowledged and
ledgered — yet the results file afterwards holds one newline byte,
not the empty contents the claim states. -/
theorem sendResults_results_file_not_byte_empty :
    sendResults envPerfect [] ['M', '1', '2', ' ', 'a', 'b'] =
      ⟨true, ['M', '1', '2', ' ', 'a', 'b', '\n'], ['\n']⟩ ∧
    (['\n'] : List Char) ≠ [] := by decide

/-- Go `copy(dst, src)`: overwrites the first
`min(len(dst), len(src))` bytes of `dst` with those of `src` and
keeps the rest of `dst`. -/
def goCopy (dst src : List Char) : List Char :=
  src.take (min dst.length src.length) ++ dst.drop (min dst.length src.length)

/-- Model of `strconv.Atoi` as used by `setTargets`: the decimal
value of a nonempty all-digit string, else `0` with the error ignored
(`val, _ := strconv.Atoi(...)`).  Int64 overflow is outside the range
of the exponent fields handled here. -/
def atoiModel (s : List Char) : Nat :=
  if s ≠ [] ∧ s.all Char.isDigit then
    s.foldl (fun a c => a * 10 + (c.toNat - 48)) 0
  else 0

/-- One record step of `setTargets`: take the field after the last
comma (`idx := bytes.LastIndex(wrk[i], ","); wrk[i][idx+1:]`); if its
value is below the device target, overwrite it in place with
`copy(wrk[i][idx+1:], target)` — which copies only the first
`min(len(field), len(target))` bytes of the printed target. -/
def setTarget (target : Nat) (r : List Char) : List Char :=
  let field := (r.reverse.takeWhile (fun c => !(c == ','))).reverse
  if atoiModel field < target then
    r.take (r.length - field.length) ++ goCopy field (Nat.toDigits 10 target)
  else r

/-- `func setTargets(dev device, wrk [][]byte) [][]byte`: the loop
adjusts each fetched record in place and returns the slice. -/
def setTargets (target : Nat) (wrk : List (List Char)) : List (List Char) :=
  wrk.map (setTarget target)

/-- C6 (code bug): with device target 100 and a fetched record whose
final comma-separated field is `99`, the guard `99 < 100` fires but
`copy(wrk[i][idx+1:], []byte("100"))` writes only the first two bytes
of `100` into the two-byte field, producing final field `10`: the
record's final field is lowered from 99 to 10, where the claim (and
the spec: "never lowers an existing value") requires the adjustment
to rewrite the field to the target and never lower it.  The slip is
latent only while field and target have equal digit counts. -/
theorem setTargets_copy_lowers_value :
    setTargets 100
        [['F', 'a', 'c', 't', 'o', 'r', '=', '1', ',', '2', ',', '3', ',',
          '9', '9']] =
      [['F', 'a', 'c', 't', 'o', 'r', '=', '1', ',', '2', ',', '3', ',',
        '1', '0']] ∧
    atoiModel ['9', '9'] = 99 ∧ atoiModel ['1', '0'] = 10 ∧
    (10 : Nat) < 99 := by decide

/-- The GPU72 de-duplication loop (label `filterDups` in the source):
scan the fetched records in order, appending each to `w2` only when
no byte-equal record is already present. -/
def filterDups (w : List (List Char)) : List (List Char) :=
  w.foldl (fun w2 x => if x ∈ w2 then w2 else w2 ++ [x]) []

/-- The record list written by a successful `topoff`:
`work = append(curWrk, work...)`, joined with newlines into the queue
file.  On the GPU72 path `work` is `filterDups` of the regex matches;
on the primenet `getWork` path it is `setTargets dev matches` with no
de-duplication. -/
def topoffMerge (curWrk work : List (List Char)) : List (List Char) :=
  curWrk ++ work

theorem filterDups_aux_nodup (w : List (List Char)) :
    ∀ acc : List (List Char), acc.Nodup →
      (w.foldl (fun w2 x => if x ∈ w2 then w2 else w2 ++ [x]) acc).Nodup := by
  induction w with
  | nil => intro acc h; simpa using h
  | cons a w ih =>
    intro acc h
    rw [List.foldl_cons]
    by_cases ha : a ∈ acc
    · rw [if_pos ha]; exact ih acc h
    · rw [if_neg ha]
      refine ih _ ?_
      rw [List.nodup_append]
      refine ⟨h, List.nodup_singleton a, ?_⟩
      intro x hx hx2
      have : x = a := by simpa using hx2
      subst this
      exact ha hx

theorem count_le_one_of_nodup (x : List Char) :
    ∀ l : List (List Char), l.Nodup → List.count x l ≤ 1 := by
  intro l
  induction l with
  | nil => intro _; simp
  | cons a l ih =>
    intro h
    obtain ⟨h1, h2⟩ := List.nodup_cons.mp h
    rw [List.count_cons]
    by_cases hxa : x = a
    · subst hxa
      have h0 : List.count x l = 0 := List.count_eq_zero.mpr h1
      simp [h0]
    · have hb : (a == x) = false :=
        beq_eq_false_iff_ne.mpr (Ne.symm hxa)
      rw [hb]
      simpa using ih h2

/-- C7 (amended): records fetched on the GPU72 path are de-duplicated
among themselves by exact byte equality before merging, so the merged
queue contains each such record at most once provided it was not
already present in the existing queue; the primenet fallback path
merges its matches without any de-duplication (see the
counterexample), and a record already present in the queue is
appended again on either path. -/
theorem topoff_gpu72_dedup_count (curWrk w : List (List Char))
    (x : List Char) (hx : x ∉ curWrk) :
    List.count x (topoffMerge curWrk (filterDups w)) ≤ 1 := by
  rw [topoffMerge, List.count_append]
  have h1 : List.count x curWrk = 0 := List.count_eq_zero.mpr hx
  have h2 : List.count x (filterDups w) ≤ 1 :=
    count_le_one_of_nodup x (filterDups w)
      (filterDups_aux_nodup w [] List.nodup_nil)
  omega

theorem topoff_gpu72_dedup_count_witness :
    List.count
        ['F', 'a', 'c', 't', 'o', 'r', '=', '2', ',', '2', ',', '3', ',',
          '7', '7']
        (topoffMerge []
          (filterDups
            [['F', 'a', 'c', 't', 'o', 'r', '=', '2', ',', '2', ',', '3',
              ',', '7', '7'],
             ['F', 'a', 'c', 't', 'o', 'r', '=', '2', ',', '2', ',', '3',
              ',', '7', '7']])) ≤ 1 :=
  topoff_gpu72_dedup_count [] _ _ (by simp)

/-- C7 counterexample: the primenet `getWork` path applies
`setTargets` but no de-duplication, so a fetched batch containing the
same record twice is merged with both copies and the queue produced
by the successful topoff contains the duplicated record twice — the
claim, quantified over every batch of newly fetched records, is
false. -/
theorem topoff_primenet_keeps_duplicates :
    List.count
        ['F', 'a', 'c', 't', 'o', 'r', '=', '1', ',', '2', ',', '3', ',',
          '9', '9']
        (topoffMerge []
          (setTargets 73
            [['F', 'a', 'c', 't', 'o', 'r', '=', '1', ',', '2', ',', '3',
              ',', '9', '9'],
             ['F', 'a', 'c', 't', 'o', 'r', '=', '1', ',', '2', ',', '3',
              ',', '9', '9']])) = 2 ∧
    ¬ (2 : Nat) ≤ 1 := by decide

/-- Process exit kinds: a normal return from `main` versus
`log.Fatal` (message plus `os.Exit(1)`). -/
inductive ExitKind
  | normalExit
  | fatalExit
deriving DecidableEq

/-- The TFmanager polling loop
`for ct := 0; ct < 10; ct++ { ... }` followed — on every exit from
the loop, including the `break` taken in single-shot mode — by
`log.Fatal("Failed 10 update attempts, exiting.")`.  Each trace
element is the outcome of one cycle (login plus every device's topoff
and reconcile succeeded).  A successful cycle with nonzero polltime
sleeps and resets the retry counter (`ct = -1` then the loop's
`ct++`); a failed cycle retries with `ct` incremented; `none` means
the trace ended with the process still polling. -/
def loopTF (polltime : Nat) : Nat → List Bool → Option ExitKind
  | ct, [] => if 10 ≤ ct then some ExitKind.fatalExit else none
  | ct, ok :: rest =>
    if 10 ≤ ct then some ExitKind.fatalExit
    else if ok then
      if polltime = 0 then some ExitKind.fatalExit
      else loopTF polltime 0 rest
    else loopTF polltime (ct + 1) rest

/-- The clLucas manager polling loop: an unbounded `for` whose
`break` on a fully successful cycle with polltime zero lets `main`
return normally. -/
def loopLL (polltime : Nat) : List Bool → Option ExitKind
  | [] => none
  | ok :: rest =>
    if ok then
      if polltime = 0 then some ExitKind.normalExit
      else loopLL polltime rest
    else loopLL polltime rest

/-- C8 (code bug): with polltime zero and a fully successful first
cycle, TFmanager prints `Exiting` and breaks out of the polling loop
— but the statement after the loop is the unconditional
`log.Fatal("Failed 10 update attempts, exiting.")`, so the process
exits with a fatal error status (and a false failure message), not
normally.  The clLucas manager variant of the same loop returns from
`main` normally, which is what the claim and the spec state. -/
theorem mainLoop_single_shot_fatal_exit :
    loopTF 0 0 [true] = some ExitKind.fatalExit ∧
    loopLL 0 [true] = some ExitKind.normalExit ∧
    ExitKind.fatalExit ≠ ExitKind.normalExit := by decide

end MersenneManager
